import Mathlib

/-!
Verification development for the nbar-qos-classifier repository.

The Go source is shallowly embedded: Go maps become association lists,
Go `string` operations become executable functions over `String.data`
(character lists), `float64` confidences become exact rationals (the
source only ever uses the literals 1.0, 0.9, 0.8, 0.7, 0.5), nanosecond
timestamps become `Int`, and fallible functions return `Except`/`Option`.
Each definition is translated from the named Go function.
-/

/-! ## String helpers

Executable counterparts of the Go `strings` functions used by the source
(`strings.ToLower`, `strings.ToUpper`, `strings.Contains`,
`strings.Split(s, "\n")`).  They operate on `String.data` so that the
kernel can evaluate them on literals. -/

/-- `strings.ToLower` (ASCII case mapping, which is all the source uses). -/
def strToLower (s : String) : String := ⟨s.data.map Char.toLower⟩

/-- `strings.ToUpper`. -/
def strToUpper (s : String) : String := ⟨s.data.map Char.toUpper⟩

/-- Does `needle` occur at the head of the list? -/
def startsWith : List Char → List Char → Bool
  | [], _ => true
  | _ :: _, [] => false
  | a :: as, b :: bs => a = b && startsWith as bs

/-- Does `needle` occur anywhere in the list? -/
def infixChars (needle : List Char) : List Char → Bool
  | [] => startsWith needle []
  | c :: cs => startsWith needle (c :: cs) || infixChars needle cs

/-- `strings.Contains hay needle`. -/
def strContains (hay needle : String) : Bool := infixChars needle.data hay.data

/-- Helper for `splitLines`: accumulates the current line (reversed). -/
def splitLinesAux : List Char → List Char → List String
  | [], acc => [⟨acc.reverse⟩]
  | c :: cs, acc =>
    if c = '\n' then ⟨acc.reverse⟩ :: splitLinesAux cs []
    else splitLinesAux cs (c :: acc)

/-- `strings.Split(s, "\n")`. -/
def splitLines (s : String) : List String := splitLinesAux s.data []

/-! ## pkg/qos/types.go — data model and rule engine -/

/-- Go `qos.Class` is a string type; invalid values are representable. -/
abbrev QosClass := String

/-- `qos.AllClasses()`. -/
def allClasses : List QosClass := ["EF", "AF41", "AF21", "CS1", "OTHER"]

/-- `qos.Class.IsValid`: membership in the closed class list. -/
def classIsValid (c : QosClass) : Bool := allClasses.any (fun k => c == k)

/-- `qos.Classification`.  The Go field `Class` is the Lean keyword
`class`, so it is rendered `qclass`; `Confidence float64` is rendered as
an exact rational. -/
structure Classification where
  protocol : String
  qclass : QosClass
  confidence : ℚ
  source : String
  timestamp : Int
deriving DecidableEq

/-- `qos.Rule`.  The compiled `regex *regexp.Regexp` (possibly nil) is
embedded as an optional matcher function: `none` models a nil regex, and
a `some f` models a compiled pattern whose `MatchString` is `f`. -/
structure Rule where
  name : String
  pattern : String
  qclass : QosClass
  priority : Int
  enabled : Bool
  regexMatch : Option (String → Bool)

/-- `Rule.Match`: a disabled rule or a nil regex never matches; otherwise
the compiled regex is run on the lowercased protocol. -/
def Rule.Match (r : Rule) (protocol : String) : Bool :=
  if !r.enabled || r.regexMatch.isNone then false
  else (r.regexMatch.getD (fun _ => false)) (strToLower protocol)

/-- `Rule.Validate`: returns `some errorMessage` on the first failing
check, in source order.  The final regex-compilation check of the source
is modeled by requiring the embedded matcher to be present. -/
def Rule.Validate (r : Rule) : Option String :=
  if r.name = "" then some "rule name cannot be empty"
  else if r.pattern = "" then some "rule pattern cannot be empty"
  else if !classIsValid r.qclass then some "invalid QoS class"
  else if r.priority < 1 then some "rule priority must be positive"
  else if r.regexMatch.isNone then some "invalid regex pattern"
  else none

/-- `qos.Classifier`.  The Go map `predefinedClassifications` is an
association list (lookup keyed on the first component). -/
structure Classifier where
  predefinedClassifications : List (String × QosClass)
  customRules : List Rule
  defaultClass : QosClass
  confidenceThreshold : ℚ

/-- Go map read `m[k]` for the predefined-classification map. -/
def lookupClass (m : List (String × QosClass)) (k : String) : Option QosClass :=
  (m.find? (fun p => p.1 == k)).map (fun p => p.2)

/-- Go map write `m[k] = v` (replace the existing binding, else append). -/
def storeClass : List (String × QosClass) → String → QosClass → List (String × QosClass)
  | [], k, v => [(k, v)]
  | (k', v') :: rest, k, v =>
    if k' == k then (k, v) :: rest else (k', v') :: storeClass rest k v

/-- `Classifier.AddPredefinedClassification`: keys are lowercased. -/
def Classifier.AddPredefinedClassification (c : Classifier) (protocol : String)
    (cls : QosClass) : Classifier :=
  { c with predefinedClassifications :=
      storeClass c.predefinedClassifications (strToLower protocol) cls }

/-- `Classifier.AddCustomRule`: validates, then appends to `customRules`.
(The source's `CompileRegex` re-compiles the pattern; in the embedding the
matcher is already carried by the rule.)  Note: no sorting happens. -/
def Classifier.AddCustomRule (c : Classifier) (r : Rule) : Except String Classifier :=
  match r.Validate with
  | some e => .error e
  | none => .ok { c with customRules := c.customRules ++ [r] }

/-- `Classifier.ClassifyProtocol`: predefined table, then the custom-rule
list in list order, then the default class. -/
def Classifier.ClassifyProtocol (c : Classifier) (protocol : String) : Classification :=
  let p := strToLower protocol
  match lookupClass c.predefinedClassifications p with
  | some cls =>
    { protocol := p, qclass := cls, confidence := 1, source := "predefined", timestamp := 0 }
  | none =>
    match c.customRules.find? (fun r => r.Match p) with
    | some r =>
      { protocol := p, qclass := r.qclass, confidence := mkRat 9 10,
        source := "custom_rule", timestamp := 0 }
    | none =>
      { protocol := p, qclass := c.defaultClass, confidence := mkRat 1 2,
        source := "default", timestamp := 0 }

/-! ## C1 / C2 : rule-engine resolution -/

/-- C1: `Classifier.ClassifyProtocol` resolves in fixed layered order with
first match winning: a lowercased name found in the predefined table
yields that class with confidence 1.0 and source "predefined" (for any
input casing); otherwise the first matching custom rule in the rule list
yields its class with confidence 0.9 and source "custom_rule"; otherwise
the configured default class with confidence 0.5 and source "default". -/
theorem classifyProtocol_layered_resolution (c : Classifier) (s : String) :
    (∀ cls, lookupClass c.predefinedClassifications (strToLower s) = some cls →
      c.ClassifyProtocol s =
        { protocol := strToLower s, qclass := cls, confidence := 1,
          source := "predefined", timestamp := 0 })
  ∧ (∀ r, lookupClass c.predefinedClassifications (strToLower s) = none →
      c.customRules.find? (fun r => r.Match (strToLower s)) = some r →
      c.ClassifyProtocol s =
        { protocol := strToLower s, qclass := r.qclass, confidence := mkRat 9 10,
          source := "custom_rule", timestamp := 0 })
  ∧ (lookupClass c.predefinedClassifications (strToLower s) = none →
      c.customRules.find? (fun r => r.Match (strToLower s)) = none →
      c.ClassifyProtocol s =
        { protocol := strToLower s, qclass := c.defaultClass, confidence := mkRat 1 2,
          source := "default", timestamp := 0 }) := by
  refine ⟨fun cls h => ?_, fun r h1 h2 => ?_, fun h1 h2 => ?_⟩
  · simp only [Classifier.ClassifyProtocol, h]
  · simp only [Classifier.ClassifyProtocol, h1, h2]
  · simp only [Classifier.ClassifyProtocol, h1, h2]

/-- Concrete classifier used by the C1 witness. -/
def classifierW : Classifier :=
  { predefinedClassifications := [("sip", "EF")]
    customRules := [{ name := "voice-rule", pattern := ".*voice.*", qclass := "EF",
                      priority := 1, enabled := true,
                      regexMatch := some (fun s => strContains s "voice") }]
    defaultClass := "CS1"
    confidenceThreshold := mkRat 8 10 }

/-- Witness for C1: the predefined branch fires on "SIP" despite casing. -/
theorem classifyProtocol_layered_resolution_witness :
    classifierW.ClassifyProtocol "SIP" =
      { protocol := "sip", qclass := "EF", confidence := 1,
        source := "predefined", timestamp := 0 } :=
  (classifyProtocol_layered_resolution classifierW "SIP").1 "EF" (by decide)

/-- Helper to thread `AddCustomRule` results in concrete examples. -/
def addedOrSame (c : Classifier) (r : Rule) : Classifier :=
  match c.AddCustomRule r with
  | .ok c2 => c2
  | .error _ => c

/-- A rule with priority 2 mapping everything to AF21, added first. -/
def rulePrio2 : Rule :=
  { name := "r-af21", pattern := ".*", qclass := "AF21", priority := 2,
    enabled := true, regexMatch := some (fun _ => true) }

/-- A rule with priority 1 mapping everything to EF, added second. -/
def rulePrio1 : Rule :=
  { name := "r-ef", pattern := ".*", qclass := "EF", priority := 1,
    enabled := true, regexMatch := some (fun _ => true) }

/-- Classifier with the priority-2 rule added before the priority-1 rule. -/
def classifierBug : Classifier :=
  addedOrSame (addedOrSame
    { predefinedClassifications := [], customRules := [],
      defaultClass := "CS1", confidenceThreshold := mkRat 8 10 }
    rulePrio2) rulePrio1

/-- C2: evaluation at the failing input.  Both rules are enabled and match
"x", the second-added rule has the numerically smaller priority, yet
`ClassifyProtocol` returns the class of the first-added (priority 2) rule:
`AddCustomRule` appends without sorting and the lookup walks insertion
order, contradicting the source's own "(sorted by priority)" comment. -/
theorem classifyProtocol_insertion_order_eval :
    rulePrio1.priority < rulePrio2.priority
  ∧ rulePrio1.Match "x" = true ∧ rulePrio2.Match "x" = true
  ∧ classifierBug.customRules.map Rule.name = ["r-af21", "r-ef"]
  ∧ (classifierBug.ClassifyProtocol "x").qclass = "AF21"
  ∧ (classifierBug.ClassifyProtocol "x").qclass ≠ "EF" := by
  refine ⟨by decide, by decide, by decide, by decide, by decide, by decide⟩

/-! ## pkg/cache/cache.go — cache store

Timestamps are `Int` nanoseconds; the ambient `time.Now()` of each method
becomes an explicit `now` argument.  The Go map `entries` becomes an
association list (iteration order of a Go map is arbitrary; the list
order plays that role). -/

/-- `cache.Entry`.  `timestamp` is the creation time (`created_at`). -/
structure Entry where
  classification : Classification
  timestamp : Int
  ttl : Int
  accessCount : Int
  lastAccessed : Int
deriving DecidableEq

/-- `Entry.IsExpired` at the given clock value. -/
def Entry.IsExpired (e : Entry) (now : Int) : Bool :=
  if e.ttl ≤ 0 then false
  else now ≥ e.timestamp + e.ttl

/-- `cache.Cache`.  Only the fields the claims touch are carried; the
stats counters mirror `cache.Stats`. -/
structure Cache where
  entries : List (String × Entry)
  maxSize : Int
  ttl : Int
  hits : Int
  misses : Int
  evictions : Int
  sizeStat : Int
deriving DecidableEq

/-- Go map read `c.entries[protocol]`. -/
def lookupEntry (es : List (String × Entry)) (k : String) : Option Entry :=
  (es.find? (fun p => p.1 == k)).map (fun p => p.2)

/-- Go map write `c.entries[protocol] = e`. -/
def storeEntry : List (String × Entry) → String → Entry → List (String × Entry)
  | [], k, e => [(k, e)]
  | (k', e') :: rest, k, e =>
    if k' == k then (k, e) :: rest else (k', e') :: storeEntry rest k e

/-- Go map delete `delete(c.entries, k)` (unique keys: first binding). -/
def removeEntry (es : List (String × Entry)) (k : String) : List (String × Entry) :=
  es.eraseP (fun p => p.1 == k)

/-- The scan loop of `Cache.evictLRU`: threads the Go locals
`(oldestProtocol, oldestTime)`, initially `("", time.Now().UnixNano())`. -/
def scanOldest : List (String × Entry) → String × Int → String × Int
  | [], acc => acc
  | p :: rest, acc =>
    scanOldest rest (if p.2.lastAccessed < acc.2 then (p.1, p.2.lastAccessed) else acc)

/-- `Cache.evictLRU`: delete the scanned-out protocol unless it is `""`. -/
def Cache.evictLRU (c : Cache) (now : Int) : Cache :=
  let o := scanOldest c.entries ("", now)
  if o.1 ≠ "" then
    { c with entries := removeEntry c.entries o.1, evictions := c.evictions + 1 }
  else c

/-- `Cache.Get`: miss on absence; expired entries are deleted lazily and
count as misses; a hit touches the entry and bumps the hit counter. -/
def Cache.Get (c : Cache) (now : Int) (protocol : String) : Option Classification × Cache :=
  match lookupEntry c.entries protocol with
  | none => (none, { c with misses := c.misses + 1 })
  | some e =>
    if e.IsExpired now then
      (none, { c with entries := removeEntry c.entries protocol,
                      sizeStat := c.sizeStat - 1, misses := c.misses + 1 })
    else
      (some e.classification,
       { c with entries := storeEntry c.entries protocol
                  { e with lastAccessed := now, accessCount := e.accessCount + 1 },
                hits := c.hits + 1 })

/-- `Cache.Set`: evict (LRU) only when the key is new and the store is at
capacity, then insert a fresh entry stamped with `now`. -/
def Cache.Set (c : Cache) (now : Int) (protocol : String) (cl : Classification) : Cache :=
  let already := (lookupEntry c.entries protocol).isSome
  let c1 := if !already && (c.entries.length : Int) ≥ c.maxSize then c.evictLRU now else c
  let e : Entry := { classification := cl, timestamp := now, ttl := c.ttl,
                     accessCount := 1, lastAccessed := now }
  { c1 with entries := storeEntry c1.entries protocol e,
            sizeStat := if !already then c1.sizeStat + 1 else c1.sizeStat }

/-! ### Association-list lemmas for the entry map -/

theorem lookupEntry_cons (q : String × Entry) (rest : List (String × Entry)) (k : String) :
    lookupEntry (q :: rest) k = if q.1 = k then some q.2 else lookupEntry rest k := by
  by_cases h : q.1 = k <;> simp [lookupEntry, List.find?_cons, h]

theorem removeEntry_cons (q : String × Entry) (rest : List (String × Entry)) (k : String) :
    removeEntry (q :: rest) k = if q.1 = k then rest else q :: removeEntry rest k := by
  by_cases h : q.1 = k <;> simp [removeEntry, List.eraseP_cons, h]

theorem storeEntry_cons (q : String × Entry) (rest : List (String × Entry)) (k : String)
    (e : Entry) :
    storeEntry (q :: rest) k e =
      if q.1 = k then (k, e) :: rest else q :: storeEntry rest k e := by
  rcases q with ⟨k0, e0⟩
  by_cases h : k0 = k <;> simp [storeEntry, h]

theorem lookupEntry_eq_none_iff (es : List (String × Entry)) (k : String) :
    lookupEntry es k = none ↔ ∀ p ∈ es, p.1 ≠ k := by
  simp [lookupEntry, List.find?_eq_none]

theorem lookupEntry_store_self (es : List (String × Entry)) (k : String) (e : Entry) :
    lookupEntry (storeEntry es k e) k = some e := by
  induction es with
  | nil => simp [storeEntry, lookupEntry_cons, lookupEntry]
  | cons q rest ih =>
    by_cases h : q.1 = k <;> simp [storeEntry_cons, lookupEntry_cons, h, ih]

theorem lookupEntry_store_ne (es : List (String × Entry)) (k k' : String) (e : Entry)
    (h : k' ≠ k) : lookupEntry (storeEntry es k e) k' = lookupEntry es k' := by
  induction es with
  | nil => simp [storeEntry, lookupEntry_cons, Ne.symm h]
  | cons q rest ih =>
    by_cases hq : q.1 = k
    · simp [storeEntry_cons, lookupEntry_cons, hq, Ne.symm h, hq ▸ Ne.symm h]
    · simp [storeEntry_cons, lookupEntry_cons, hq, ih]

theorem lookupEntry_remove_ne (es : List (String × Entry)) (k k' : String)
    (h : k' ≠ k) : lookupEntry (removeEntry es k) k' = lookupEntry es k' := by
  induction es with
  | nil => simp [removeEntry]
  | cons q rest ih =>
    by_cases hq : q.1 = k
    · have hq' : q.1 ≠ k' := fun hh => h (hh.symm.trans hq)
      simp [removeEntry_cons, lookupEntry_cons, hq, hq', Ne.symm h]
    · by_cases hq' : q.1 = k'
      · simp [removeEntry_cons, lookupEntry_cons, hq, hq', h]
      · simp [removeEntry_cons, lookupEntry_cons, hq, hq', ih]

theorem lookupEntry_remove_self (es : List (String × Entry)) (k : String)
    (hnd : (es.map Prod.fst).Nodup) : lookupEntry (removeEntry es k) k = none := by
  induction es with
  | nil => simp [removeEntry, lookupEntry]
  | cons q rest ih =>
    simp only [List.map_cons, List.nodup_cons] at hnd
    by_cases hq : q.1 = k
    · have : lookupEntry rest k = none := by
        rw [lookupEntry_eq_none_iff]
        intro p hp hpk
        exact hnd.1 (by simpa [hpk, hq] using List.mem_map_of_mem Prod.fst hp)
      simpa [removeEntry_cons, hq] using this
    · simp [removeEntry_cons, lookupEntry_cons, hq, ih hnd.2]

theorem length_store_of_mem (es : List (String × Entry)) (k : String) (e : Entry)
    (h : (lookupEntry es k).isSome) : (storeEntry es k e).length = es.length := by
  induction es with
  | nil => simp [lookupEntry] at h
  | cons q rest ih =>
    by_cases hq : q.1 = k
    · simp [storeEntry_cons, hq]
    · have h' : (lookupEntry rest k).isSome := by
        simpa [lookupEntry_cons, hq] using h
      simp [storeEntry_cons, hq, ih h']

theorem length_remove_of_mem (es : List (String × Entry)) (k : String) (e : Entry)
    (h : lookupEntry es k = some e) : (removeEntry es k).length = es.length - 1 := by
  induction es with
  | nil => simp [lookupEntry] at h
  | cons q rest ih =>
    by_cases hq : q.1 = k
    · simp [removeEntry_cons, hq]
    · have h' : lookupEntry rest k = some e := by
        simpa [lookupEntry_cons, hq] using h
      have hne : rest ≠ [] := by
        intro hnil
        rw [hnil] at h'
        simp [lookupEntry] at h'
      have hlen : 0 < rest.length := List.length_pos.mpr hne
      have hih := ih h'
      simp only [removeEntry_cons, if_neg hq, List.length_cons, hih]
      omega

/-! ## C6 : Cache.Get TTL and counter semantics -/

/-- C6: for an entry with positive ttl, `Get` at or after
`created_at + ttl` misses, lazily removes the entry (size decreases by
one) and bumps the miss counter; `Get` on a present unexpired entry bumps
the hit counter and touches the entry; `Get` on an absent key bumps the
miss counter. -/
theorem cache_get_expiry_and_counters (c : Cache) (now : Int) (k : String) :
    (∀ e, lookupEntry c.entries k = some e → 0 < e.ttl → e.timestamp + e.ttl ≤ now →
      (c.Get now k).1 = none
      ∧ (c.Get now k).2.entries.length = c.entries.length - 1
      ∧ ((c.entries.map Prod.fst).Nodup → lookupEntry (c.Get now k).2.entries k = none)
      ∧ (c.Get now k).2.misses = c.misses + 1)
  ∧ (∀ e, lookupEntry c.entries k = some e → e.IsExpired now = false →
      (c.Get now k).1 = some e.classification
      ∧ (c.Get now k).2.hits = c.hits + 1
      ∧ lookupEntry (c.Get now k).2.entries k =
          some { e with lastAccessed := now, accessCount := e.accessCount + 1 })
  ∧ (lookupEntry c.entries k = none →
      (c.Get now k).1 = none ∧ (c.Get now k).2.misses = c.misses + 1) := by
  refine ⟨fun e he httl hexp => ?_, fun e he hfresh => ?_, fun he => ?_⟩
  · have hisexp : e.IsExpired now = true := by
      simp [Entry.IsExpired, if_neg (not_le.mpr httl), hexp]
    refine ⟨?_, ?_, fun hnd => ?_, ?_⟩ <;>
      simp [Cache.Get, he, hisexp, length_remove_of_mem c.entries k e he,
        lookupEntry_remove_self c.entries k]
    exact lookupEntry_remove_self c.entries k hnd
  · refine ⟨?_, ?_, ?_⟩ <;>
      simp [Cache.Get, he, hfresh, lookupEntry_store_self]
  · exact ⟨by simp [Cache.Get, he], by simp [Cache.Get, he]⟩

/-- Concrete entry for the C6 witness: created at 0 with ttl 5. -/
def entryW : Entry :=
  { classification := { protocol := "http", qclass := "AF21",
                        confidence := mkRat 8 10, source := "ai", timestamp := 0 }
    timestamp := 0, ttl := 5, accessCount := 1, lastAccessed := 0 }

/-- Concrete cache for the C6 witness. -/
def cacheW : Cache :=
  { entries := [("http", entryW)], maxSize := 10, ttl := 5,
    hits := 0, misses := 0, evictions := 0, sizeStat := 1 }

/-- Witness for C6: at time 5 the ttl-5 entry created at 0 is expired —
the read misses, removes the entry and bumps the miss counter. -/
theorem cache_get_expiry_and_counters_witness :
    (cacheW.Get 5 "http").1 = none
    ∧ (cacheW.Get 5 "http").2.entries.length = cacheW.entries.length - 1
    ∧ lookupEntry (cacheW.Get 5 "http").2.entries "http" = none
    ∧ (cacheW.Get 5 "http").2.misses = cacheW.misses + 1 := by
  obtain ⟨h1, h2, h3, h4⟩ :=
    (cache_get_expiry_and_counters cacheW 5 "http").1 entryW (by decide) (by decide) (by decide)
  exact ⟨h1, h2, h3 (by decide), h4⟩

/-! ### scanOldest lemmas -/

theorem mem_store_of_ne (es : List (String × Entry)) (k : String) (e : Entry)
    (p : String × Entry) (hp : p ∈ es) (hne : p.1 ≠ k) : p ∈ storeEntry es k e := by
  induction es with
  | nil => cases hp
  | cons q rest ih =>
    rcases List.mem_cons.mp hp with hq | hrest
    · have : ¬ q.1 = k := hq ▸ hne
      simp [storeEntry_cons, this, hq]
    · by_cases hqk : q.1 = k
      · simp [storeEntry_cons, hqk, List.mem_cons, Or.inr hrest]
      · simp [storeEntry_cons, hqk, List.mem_cons, Or.inr (ih hrest)]

theorem keys_store_of_mem (es : List (String × Entry)) (k : String) (e : Entry)
    (h : (lookupEntry es k).isSome) :
    (storeEntry es k e).map Prod.fst = es.map Prod.fst := by
  induction es with
  | nil => simp [lookupEntry] at h
  | cons q rest ih =>
    by_cases hq : q.1 = k
    · simp [storeEntry_cons, hq]
    · have h' : (lookupEntry rest k).isSome := by
        simpa [lookupEntry_cons, hq] using h
      simp [storeEntry_cons, hq, ih h']

theorem lookupEntry_of_mem_nodup (es : List (String × Entry))
    (hnd : (es.map Prod.fst).Nodup) (p : String × Entry) (hp : p ∈ es) :
    lookupEntry es p.1 = some p.2 := by
  induction es with
  | nil => cases hp
  | cons q rest ih =>
    simp only [List.map_cons, List.nodup_cons] at hnd
    rcases List.mem_cons.mp hp with hq | hrest
    · subst hq
      simp [lookupEntry_cons]
    · by_cases hqp : q.1 = p.1
      · exact absurd (by simpa [hqp] using List.mem_map_of_mem Prod.fst hrest) hnd.1
      · simp [lookupEntry_cons, hqp, ih hnd.2 hrest]

theorem scanOldest_snd_le (es : List (String × Entry)) (acc : String × Int) :
    (scanOldest es acc).2 ≤ acc.2 ∧ ∀ p ∈ es, (scanOldest es acc).2 ≤ p.2.lastAccessed := by
  induction es generalizing acc with
  | nil => exact ⟨le_refl _, by simp⟩
  | cons q rest ih =>
    have hstep : scanOldest (q :: rest) acc =
        scanOldest rest (if q.2.lastAccessed < acc.2 then (q.1, q.2.lastAccessed) else acc) := rfl
    by_cases hq : q.2.lastAccessed < acc.2
    · rw [hstep, if_pos hq]
      obtain ⟨h1, h2⟩ := ih (q.1, q.2.lastAccessed)
      refine ⟨le_trans h1 (le_of_lt hq), ?_⟩
      intro p hp
      rcases List.mem_cons.mp hp with hpq | hpr
      · subst hpq
        exact h1
      · exact h2 p hpr
    · rw [hstep, if_neg hq]
      obtain ⟨h1, h2⟩ := ih acc
      refine ⟨h1, ?_⟩
      intro p hp
      rcases List.mem_cons.mp hp with hpq | hpr
      · subst hpq
        exact le_trans h1 (not_lt.mp hq)
      · exact h2 p hpr

theorem scanOldest_eq_acc_or_mem (es : List (String × Entry)) (acc : String × Int) :
    scanOldest es acc = acc ∨ ∃ p ∈ es, scanOldest es acc = (p.1, p.2.lastAccessed) := by
  induction es generalizing acc with
  | nil => exact Or.inl rfl
  | cons q rest ih =>
    have hstep : scanOldest (q :: rest) acc =
        scanOldest rest (if q.2.lastAccessed < acc.2 then (q.1, q.2.lastAccessed) else acc) := rfl
    by_cases hq : q.2.lastAccessed < acc.2
    · rw [hstep, if_pos hq]
      rcases ih (q.1, q.2.lastAccessed) with h | ⟨p, hp, h⟩
      · exact Or.inr ⟨q, List.mem_cons_self q rest, h⟩
      · exact Or.inr ⟨p, List.mem_cons_of_mem q hp, h⟩
    · rw [hstep, if_neg hq]
      rcases ih acc with h | ⟨p, hp, h⟩
      · exact Or.inl h
      · exact Or.inr ⟨p, List.mem_cons_of_mem q hp, h⟩

theorem scanOldest_no_update (es : List (String × Entry)) (acc : String × Int)
    (h : ∀ p ∈ es, ¬ p.2.lastAccessed < acc.2) : scanOldest es acc = acc := by
  induction es with
  | nil => rfl
  | cons q rest ih =>
    have hq := h q (List.mem_cons_self q rest)
    simp only [scanOldest, if_neg hq]
    exact ih (fun p hp => h p (List.mem_cons_of_mem q hp))

theorem scanOldest_unique_min (es : List (String × Entry)) (acc : String × Int)
    (kOld : String) (eOld : Entry) (hmem : (kOld, eOld) ∈ es)
    (hacc : eOld.lastAccessed < acc.2)
    (hmin : ∀ p ∈ es, p ≠ (kOld, eOld) → eOld.lastAccessed < p.2.lastAccessed) :
    scanOldest es acc = (kOld, eOld.lastAccessed) := by
  induction es generalizing acc with
  | nil => cases hmem
  | cons q rest ih =>
    by_cases hqe : q = (kOld, eOld)
    · subst hqe
      have hstep : scanOldest ((kOld, eOld) :: rest) acc =
          scanOldest rest (kOld, eOld.lastAccessed) := by
        simp only [scanOldest, if_pos hacc]
      rw [hstep]
      refine scanOldest_no_update rest (kOld, eOld.lastAccessed) ?_
      intro p hp
      by_cases hpe : p = (kOld, eOld)
      · simp [hpe]
      · exact not_lt.mpr (le_of_lt (hmin p (List.mem_cons_of_mem _ hp) hpe))
    · have hrest : (kOld, eOld) ∈ rest := by
        rcases List.mem_cons.mp hmem with hq | hr
        · exact absurd hq.symm hqe
        · exact hr
      have hql : eOld.lastAccessed < q.2.lastAccessed :=
        hmin q (List.mem_cons_self q rest) hqe
      have hmin' : ∀ p ∈ rest, p ≠ (kOld, eOld) → eOld.lastAccessed < p.2.lastAccessed :=
        fun p hp hpe => hmin p (List.mem_cons_of_mem q hp) hpe
      by_cases hq : q.2.lastAccessed < acc.2
      · simp only [scanOldest, if_pos hq]
        exact ih (q.1, q.2.lastAccessed) hrest hql hmin'
      · simp only [scanOldest, if_neg hq]
        exact ih acc hrest hacc hmin' 

/-! ## C3 : Cache.Set eviction discipline -/

/-- The entry `Cache.Set` constructs: created and last accessed at `now`,
with the cache-wide ttl and access count 1. -/
def freshEntry (cl : Classification) (now ttl : Int) : Entry :=
  { classification := cl, timestamp := now, ttl := ttl,
    accessCount := 1, lastAccessed := now }

/-- C3: `Set` evicts exactly the entry with the oldest `last_accessed`,
and only when the inserted key is new and the store is at `max_size`;
overwriting an existing key never evicts nor checks the size limit; and an
entry touched via `Get` after another entry's last access is not the one
evicted by the next insert. -/
theorem cache_set_lru_eviction (c : Cache) (now : Int) (k : String) (cl : Classification) :
    ((lookupEntry c.entries k).isSome →
      c.Set now k cl = { c with entries := storeEntry c.entries k (freshEntry cl now c.ttl) }
      ∧ (c.Set now k cl).entries.length = c.entries.length)
  ∧ (lookupEntry c.entries k = none → (c.entries.length : Int) < c.maxSize →
      c.Set now k cl = { c with
        entries := storeEntry c.entries k (freshEntry cl now c.ttl),
        sizeStat := c.sizeStat + 1 })
  ∧ (∀ kOld eOld, lookupEntry c.entries k = none → (c.entries.length : Int) ≥ c.maxSize →
      (kOld, eOld) ∈ c.entries → kOld ≠ "" →
      (∀ p ∈ c.entries, p ≠ (kOld, eOld) → eOld.lastAccessed < p.2.lastAccessed) →
      (∀ p ∈ c.entries, p.2.lastAccessed < now) →
      c.Set now k cl = { c with
        entries := storeEntry (removeEntry c.entries kOld) k (freshEntry cl now c.ttl),
        evictions := c.evictions + 1, sizeStat := c.sizeStat + 1 })
  ∧ (∀ e kNew now2 cl2, (c.entries.map Prod.fst).Nodup →
      lookupEntry c.entries k = some e → e.IsExpired now = false →
      (∃ p ∈ c.entries, p.1 ≠ k ∧ p.2.lastAccessed < now) →
      lookupEntry c.entries kNew = none → kNew ≠ k →
      lookupEntry (((c.Get now k).2).Set now2 kNew cl2).entries k =
        some { e with lastAccessed := now, accessCount := e.accessCount + 1 }) := by
  refine ⟨fun hsome => ?_, fun hnone hlt => ?_, fun kOld eOld hnone hcap hmem hkold hmin hall => ?_,
    fun e kNew now2 cl2 hnd he hfresh hprot hknew hne => ?_⟩
  · obtain ⟨e0, he0⟩ := Option.isSome_iff_exists.mp hsome
    have hlen := length_store_of_mem c.entries k (freshEntry cl now c.ttl) hsome
    constructor
    · simp [Cache.Set, freshEntry, he0]
    · simp only [freshEntry] at hlen
      simp [Cache.Set, he0, hlen]
  · simp [Cache.Set, freshEntry, hnone, not_le.mpr hlt]
  · have hacc : eOld.lastAccessed < now := hall (kOld, eOld) hmem
    have hscan : scanOldest c.entries ("", now) = (kOld, eOld.lastAccessed) :=
      scanOldest_unique_min c.entries ("", now) kOld eOld hmem hacc hmin
    have hev : c.evictLRU now =
        { c with entries := removeEntry c.entries kOld, evictions := c.evictions + 1 } := by
      simp [Cache.evictLRU, hscan, hkold]
    simp [Cache.Set, freshEntry, hnone, hcap, hev]
  · -- the cache state after the touching read
    set touched : Entry := { e with lastAccessed := now, accessCount := e.accessCount + 1 }
      with htouched
    have hget : (c.Get now k).2 =
        { c with entries := storeEntry c.entries k touched, hits := c.hits + 1 } := by
      simp [Cache.Get, he, hfresh, htouched]
    have hsome : (lookupEntry c.entries k).isSome := by simp [he]
    have hkeys : ((storeEntry c.entries k touched).map Prod.fst) = c.entries.map Prod.fst :=
      keys_store_of_mem c.entries k touched hsome
    have hnd' : ((storeEntry c.entries k touched).map Prod.fst).Nodup := hkeys ▸ hnd
    have hlookup' : lookupEntry (storeEntry c.entries k touched) k = some touched :=
      lookupEntry_store_self c.entries k touched
    obtain ⟨p0, hp0mem, hp0ne, hp0old⟩ := hprot
    have hp0mem' : p0 ∈ storeEntry c.entries k touched :=
      mem_store_of_ne c.entries k touched p0 hp0mem hp0ne
    -- the LRU scan in a subsequent eviction cannot select k
    have hscan_ne : ∀ o, o = scanOldest (storeEntry c.entries k touched) ("", now2) →
        o.1 ≠ "" → o.1 ≠ k := by
      intro o ho hne1 hok
      rcases scanOldest_eq_acc_or_mem (storeEntry c.entries k touched) ("", now2) with hc | hc
      · exact hne1 (by rw [ho, hc])
      · obtain ⟨p1, hp1mem, hp1eq⟩ := hc
        have hp1k : p1.1 = k := by rw [ho, hp1eq] at hok; exact hok
        have hl : lookupEntry (storeEntry c.entries k touched) p1.1 = some p1.2 :=
          lookupEntry_of_mem_nodup _ hnd' p1 hp1mem
        rw [hp1k, hlookup'] at hl
        have hp1la : p1.2.lastAccessed = now := by
          have h2 := Option.some.inj hl
          rw [← h2, htouched]
        have hle := (scanOldest_snd_le (storeEntry c.entries k touched) ("", now2)).2 p0 hp0mem'
        rw [hp1eq] at hle
        simp only [hp1la] at hle
        exact absurd hle (not_le.mpr hp0old)
    -- the later insert of a fresh key preserves the binding of k
    have hknew' : lookupEntry (storeEntry c.entries k touched) kNew = none := by
      rw [lookupEntry_store_ne c.entries k kNew touched hne, hknew]
    rw [hget]
    simp only [Cache.Set]
    rw [hknew']
    simp only [Option.isSome_none, Bool.not_false, Bool.true_and, decide_eq_true_eq]
    by_cases hcap : ((storeEntry c.entries k touched).length : Int) ≥ c.maxSize
    · rw [if_pos hcap]
      simp only [Cache.evictLRU]
      by_cases hone : (scanOldest (storeEntry c.entries k touched) ("", now2)).1 = ""
      · rw [if_neg (not_not_intro hone)]
        dsimp only
        rw [lookupEntry_store_ne _ kNew k _ (Ne.symm hne)]
        exact hlookup'
      · have hok : (scanOldest (storeEntry c.entries k touched) ("", now2)).1 ≠ k :=
          hscan_ne (scanOldest (storeEntry c.entries k touched) ("", now2)) rfl hone
        rw [if_pos hone]
        dsimp only
        rw [lookupEntry_store_ne _ kNew k _ (Ne.symm hne)]
        rw [lookupEntry_remove_ne _ _ k (Ne.symm hok)]
        exact hlookup'
    · rw [if_neg hcap]
      dsimp only
      rw [lookupEntry_store_ne _ kNew k _ (Ne.symm hne)]
      exact hlookup'

/-- Concrete entries for the C3 witness: "old" was last accessed at 10,
"newer" at 20. -/
def entryOld : Entry :=
  { classification := { protocol := "old", qclass := "EF", confidence := 1,
                        source := "predefined", timestamp := 0 }
    timestamp := 0, ttl := 0, accessCount := 1, lastAccessed := 10 }

/-- Second concrete entry for the C3 witness. -/
def entryNewer : Entry :=
  { classification := { protocol := "newer", qclass := "AF41", confidence := 1,
                        source := "predefined", timestamp := 0 }
    timestamp := 0, ttl := 0, accessCount := 1, lastAccessed := 20 }

/-- A cache at capacity (2 entries, maxSize 2) for the C3 witness. -/
def cacheL : Cache :=
  { entries := [("old", entryOld), ("newer", entryNewer)], maxSize := 2, ttl := 0,
    hits := 0, misses := 0, evictions := 0, sizeStat := 2 }

/-- Classification inserted by the C3 witness. -/
def clNew : Classification :=
  { protocol := "fresh", qclass := "CS1", confidence := mkRat 1 2,
    source := "default", timestamp := 0 }

/-- Witness for C3: inserting a new key into the full `cacheL` at time 30
evicts exactly "old", the entry with the oldest last-accessed stamp. -/
theorem cache_set_lru_eviction_witness :
    cacheL.Set 30 "fresh" clNew = { cacheL with
      entries := storeEntry (removeEntry cacheL.entries "old") "fresh"
        (freshEntry clNew 30 cacheL.ttl),
      evictions := cacheL.evictions + 1, sizeStat := cacheL.sizeStat + 1 } :=
  (cache_set_lru_eviction cacheL 30 "fresh" clNew).2.2.1 "old" entryOld
    (by decide) (by decide) (by decide) (by decide) (by decide) (by decide)

/-! ## C8 : Cache.Save / Cache.Load round-trip

The on-disk artifact is modeled symbolically: the JSON encoding of the
entry map (or of the legacy `map[protocol]classString`) is an injective
constructor, and the optional gzip framing is a boolean on the file.
`Save`/`Load` translate `Cache.Save`/`Cache.Load` over this model; the
`filePath` is assumed non-empty (both are no-ops otherwise). -/

/-- What a cache file can decode as: the current structured format or the
legacy plain `map[string]string` format. -/
inductive CachePayload where
  | newFormat (entries : List (String × Entry))
  | oldFormat (pairs : List (String × String))
deriving DecidableEq

/-- A written cache file: payload plus whether it is gzip-framed. -/
structure CacheFile where
  gzipped : Bool
  payload : CachePayload
deriving DecidableEq

/-- `Cache.Save`: encodes the entry map, gzip-framed iff the compression
flag is set.  (The backup-copy step does not affect the written file.) -/
def Cache.Save (c : Cache) (compression : Bool) : CacheFile :=
  { gzipped := compression, payload := .newFormat c.entries }

/-- The entry `Cache.Load` reconstructs from a legacy-format pair, with
the configured ttl (in seconds) and the load-time clock (in seconds). -/
def legacyEntry (nowSec ttlSec : Int) (q : String × String) : String × Entry :=
  (q.1,
   { classification := { protocol := q.1, qclass := q.2, confidence := 0,
                         source := "cache", timestamp := 0 }
     timestamp := nowSec, ttl := ttlSec, accessCount := 0, lastAccessed := nowSec })

/-- `Cache.Load`: a missing file is fine (empty cache is a valid start);
with compression enabled, a non-gzip file falls back to being read raw; a
gzip file read with compression disabled fails both decode attempts; the
current format is tried first, then the legacy format (entries rebuilt
with the configured TTL). -/
def Cache.Load (c : Cache) (compression : Bool) (nowSec ttlSec : Int)
    (file : Option CacheFile) : Except String Cache :=
  match file with
  | none => .ok c
  | some f =>
    match (if f.gzipped then (if compression then some f.payload else none)
           else some f.payload) with
    | none => .error "failed to decode cache file"
    | some (.newFormat es) =>
      .ok { c with entries := es, sizeStat := (es.length : Int) }
    | some (.oldFormat ps) =>
      .ok { c with entries := ps.map (legacyEntry nowSec ttlSec),
                   sizeStat := ((ps.map (legacyEntry nowSec ttlSec)).length : Int) }

/-- C8: for any cache state, `Save` followed by `Load` on a fresh store
reproduces an equivalent entry set — the same protocol-to-class mapping
with the same confidence and source per entry — with the compression flag
both enabled and disabled. -/
theorem cache_save_load_roundtrip (c c0 : Cache) (compression : Bool) (nowSec ttlSec : Int) :
    ∃ c2, c0.Load compression nowSec ttlSec (some (c.Save compression)) = .ok c2
      ∧ c2.entries = c.entries
      ∧ c2.entries.map (fun p => (p.1, p.2.classification.qclass,
          p.2.classification.confidence, p.2.classification.source)) =
        c.entries.map (fun p => (p.1, p.2.classification.qclass,
          p.2.classification.confidence, p.2.classification.source)) := by
  refine ⟨{ c0 with entries := c.entries, sizeStat := (c.entries.length : Int) }, ?_, rfl, rfl⟩
  cases compression <;> simp [Cache.Save, Cache.Load]

/-! ## C4 : circuit breaker (pkg/ai/ratelimiter.go)

`time.Since(x) ≥ d` becomes `now - x ≥ d` over an explicit `Int` clock.
The wrapped `fn() → error` becomes its result, an `Option String`
(`some` = failure). -/

/-- `ai.CircuitState`; `open` is a Lean keyword, rendered `opened`. -/
inductive CircuitState where
  | closed
  | opened
  | halfOpen
deriving DecidableEq

/-- `ai.CircuitBreaker` (mutable fields only). -/
structure CircuitBreaker where
  maxFailures : Int
  resetTimeout : Int
  state : CircuitState
  failures : Int
  lastFailureTime : Int
deriving DecidableEq

/-- `NewCircuitBreaker`: closed, zero failures (Go zero values). -/
def NewCircuitBreaker (maxFailures resetTimeout : Int) : CircuitBreaker :=
  { maxFailures := maxFailures, resetTimeout := resetTimeout,
    state := .closed, failures := 0, lastFailureTime := 0 }

/-- `CircuitBreaker.allowRequest`. -/
def CircuitBreaker.allowRequest (cb : CircuitBreaker) (now : Int) : Bool :=
  match cb.state with
  | .closed => true
  | .opened => now - cb.lastFailureTime ≥ cb.resetTimeout
  | .halfOpen => true

/-- `CircuitBreaker.recordResult`: the failure/success branch first, then
the trailing open-to-half-open transition on the updated fields. -/
def CircuitBreaker.recordResult (cb : CircuitBreaker) (now : Int) (failed : Bool) :
    CircuitBreaker :=
  let cb1 :=
    if failed then
      { cb with failures := cb.failures + 1, lastFailureTime := now,
                state := if cb.failures + 1 ≥ cb.maxFailures then .opened else cb.state }
    else
      { cb with failures := 0,
                state := if cb.state = .halfOpen then .closed else cb.state }
  if cb1.state = .opened ∧ now - cb1.lastFailureTime ≥ cb1.resetTimeout then
    { cb1 with state := .halfOpen, failures := 0 }
  else cb1

/-- `CircuitBreaker.Call`: returns (fn invoked?, returned error, new
state).  A short-circuited call returns `ErrCircuitOpen` without invoking
the wrapped function. -/
def CircuitBreaker.Call (cb : CircuitBreaker) (now : Int) (fnErr : Option String) :
    (Bool × Option String) × CircuitBreaker :=
  if cb.allowRequest now then
    ((true, fnErr), cb.recordResult now fnErr.isSome)
  else
    ((false, some "circuit breaker is open"), cb)

/-- C4 counterexample: with max_failures 1 and reset_timeout 10, a failure
at t=0 opens the breaker; the probe at t=10 is allowed and succeeds, yet
the breaker ends in half-open, not closed: `recordResult`'s success branch
leaves the state open (it only closes from half-open, which was never
entered), and the trailing transition then moves open to half-open. -/
theorem circuitBreaker_probe_success_not_closed :
    ((((NewCircuitBreaker 1 10).Call 0 (some "boom")).2.Call 10 none).2.state
        = CircuitState.halfOpen)
    ∧ ((((NewCircuitBreaker 1 10).Call 0 (some "boom")).2.Call 10 none).2.state
        ≠ CircuitState.closed)
    ∧ (((NewCircuitBreaker 1 10).Call 0 (some "boom")).2.state = CircuitState.opened)
    ∧ (((NewCircuitBreaker 1 10).Call 0 (some "boom")).2.Call 10 none).1.1 = true := by
  refine ⟨by decide, by decide, by decide, by decide⟩

/-- A sequence of calls through the breaker whose wrapped function fails
every time, at the given clock values. -/
def callsAllFailing (cb : CircuitBreaker) : List Int → CircuitBreaker
  | [] => cb
  | t :: ts => callsAllFailing ((cb.Call t (some "provider failure")).2) ts

/-- Reaching `maxFailures` consecutive failures from a closed breaker
opens it (helper for the C4 theorem). -/
theorem callsAllFailing_opens : ∀ (ts : List Int) (cb : CircuitBreaker),
    cb.state = .closed → 0 < cb.resetTimeout →
    cb.failures + (ts.length : Int) = cb.maxFailures → ts ≠ [] →
    (callsAllFailing cb ts).state = .opened := by
  intro ts
  induction ts with
  | nil => exact fun cb _ _ _ h4 => absurd rfl h4
  | cons t ts' ih =>
    intro cb h1 h2 h3 _
    by_cases hnil : ts' = []
    · subst hnil
      have hmax : cb.failures + 1 ≥ cb.maxFailures := by
        simp at h3
        omega
      have hrt : ¬ cb.resetTimeout ≤ 0 := not_le.mpr h2
      simp [callsAllFailing, CircuitBreaker.Call, CircuitBreaker.allowRequest, h1,
            CircuitBreaker.recordResult, hmax, hrt]
    · have hlt : ¬ (cb.failures + 1 ≥ cb.maxFailures) := by
        have hpos : 0 < ts'.length := List.length_pos.mpr hnil
        simp at h3
        omega
      have hstep : (cb.Call t (some "provider failure")).2 =
          { cb with failures := cb.failures + 1, lastFailureTime := t } := by
        simp [CircuitBreaker.Call, CircuitBreaker.allowRequest, h1,
              CircuitBreaker.recordResult, hlt]
      have hrw : callsAllFailing cb (t :: ts') =
          callsAllFailing ((cb.Call t (some "provider failure")).2) ts' := rfl
      rw [hrw, hstep]
      refine ih _ (by simp [h1]) (by simpa using h2) ?_ hnil
      simp only [List.length_cons] at h3
      simp only []
      push_cast at h3 ⊢
      omega

/-- C4 (amended): after `max_failures` consecutive failed calls the
breaker reports open; while open, a call before `reset_timeout` has
elapsed returns an error without invoking the wrapped function; once the
timeout has elapsed the next call is allowed as a probe; a successful
probe moves the breaker to half-open with the failure count reset to zero
(a further success from half-open then closes it); a failed probe keeps
it open and restarts the timeout. -/
theorem circuitBreaker_state_machine (cb : CircuitBreaker) (now : Int) :
    (∀ ts : List Int, cb.state = .closed → 0 < cb.resetTimeout →
      cb.failures + (ts.length : Int) = cb.maxFailures → ts ≠ [] →
      (callsAllFailing cb ts).state = .opened)
  ∧ (∀ fnErr, cb.state = .opened → now - cb.lastFailureTime < cb.resetTimeout →
      cb.Call now fnErr = ((false, some "circuit breaker is open"), cb))
  ∧ (∀ fnErr, cb.state = .opened → now - cb.lastFailureTime ≥ cb.resetTimeout →
      (cb.Call now fnErr).1.1 = true)
  ∧ (cb.state = .opened → now - cb.lastFailureTime ≥ cb.resetTimeout →
      (cb.Call now none).2.state = .halfOpen ∧ (cb.Call now none).2.failures = 0)
  ∧ (cb.state = .halfOpen →
      (cb.Call now none).2.state = .closed ∧ (cb.Call now none).2.failures = 0)
  ∧ (∀ e, cb.state = .opened → now - cb.lastFailureTime ≥ cb.resetTimeout →
      0 < cb.resetTimeout →
      (cb.Call now (some e)).2.state = .opened
      ∧ (cb.Call now (some e)).2.lastFailureTime = now) := by
  refine ⟨fun ts => callsAllFailing_opens ts cb, fun fnErr h1 h2 => ?_, fun fnErr h1 h2 => ?_,
    fun h1 h2 => ?_, fun h1 => ?_, fun e h1 h2 h3 => ?_⟩
  · simp [CircuitBreaker.Call, CircuitBreaker.allowRequest, h1, not_le.mpr h2]
  · simp [CircuitBreaker.Call, CircuitBreaker.allowRequest, h1, h2]
  · constructor <;>
      simp [CircuitBreaker.Call, CircuitBreaker.allowRequest, h1, h2,
            CircuitBreaker.recordResult]
  · constructor <;>
      simp [CircuitBreaker.Call, CircuitBreaker.allowRequest, h1,
            CircuitBreaker.recordResult]
  · have hrt : ¬ cb.resetTimeout ≤ 0 := not_le.mpr h3
    constructor <;>
      simp [CircuitBreaker.Call, CircuitBreaker.allowRequest, h1, h2,
            CircuitBreaker.recordResult, hrt]

/-- An open breaker (max_failures 1, reset_timeout 10, last failure at 0)
used by the C4 witness. -/
def cbOpenW : CircuitBreaker :=
  { maxFailures := 1, resetTimeout := 10, state := .opened, failures := 1,
    lastFailureTime := 0 }

/-- Witness for C4 (amended): two failed calls open a fresh breaker with
max_failures 2; a successful probe on an open breaker whose timeout has
elapsed lands in half-open. -/
theorem circuitBreaker_state_machine_witness :
    (callsAllFailing (NewCircuitBreaker 2 10) [0, 1]).state = CircuitState.opened
  ∧ (cbOpenW.Call 10 none).2.state = CircuitState.halfOpen :=
  ⟨(circuitBreaker_state_machine (NewCircuitBreaker 2 10) 0).1 [0, 1]
      (by decide) (by decide) (by decide) (by decide),
   ((circuitBreaker_state_machine cbOpenW 10).2.2.2.1 (by decide) (by decide)).1⟩

/-! ## pkg/ai/provider.go — multi-provider orchestration

A provider's HTTP backend is abstracted to its observable behavior: a
`classify` function from a batch to either a result list or an error
string.  The rate limiter the Manager owns is abstracted to its admission
state (available tokens plus whether the caller's context is cancelled);
`none` from a wait means the call would block awaiting a refill. -/

/-- The `ai.Provider` interface as consumed by `Manager.classifyBatch`. -/
structure MProvider where
  name : String
  available : Bool
  classify : List String → Except String (List (String × Classification))

/-- Go map write `results[protocol] = classification`. -/
def storeResult : List (String × Classification) → String → Classification →
    List (String × Classification)
  | [], k, v => [(k, v)]
  | (k', v') :: rest, k, v =>
    if k' == k then (k, v) :: rest else (k', v') :: storeResult rest k v

/-- The result-merge loop of `Manager.ClassifyProtocols`. -/
def mergeResults (acc : List (String × Classification))
    (rs : List (String × Classification)) : List (String × Classification) :=
  rs.foldl (fun a q => storeResult a q.1 q.2) acc

/-- `Manager.classifyBatch`: skip unavailable providers, return the first
success stamped with source "ai" and a fresh timestamp, else fail with
the last provider error. -/
def Manager.classifyBatch (now : Int) (providers : List MProvider)
    (batch : List String) (lastErr : String) :
    Except String (List (String × Classification)) :=
  match providers with
  | [] => .error ("all AI providers failed, last error: " ++ lastErr)
  | p :: ps =>
    if !p.available then Manager.classifyBatch now ps batch lastErr
    else
      match p.classify batch with
      | .ok rs =>
        .ok (rs.map (fun q => (q.1, { q.2 with source := "ai", timestamp := now })))
      | .error e => Manager.classifyBatch now ps batch e

/-- The admission state the Manager's rate limiter exposes to
`ClassifyProtocols`: available tokens and caller-context cancellation. -/
structure AIRunState where
  tokens : Nat
  cancelled : Bool
deriving DecidableEq

/-- One `rateLimiter.Wait(ctx)` from the Manager: a token is consumed if
available; otherwise a cancelled context yields the cancellation error;
otherwise the call blocks awaiting a refill (`none`). -/
def rlWait (st : AIRunState) : Option (Except String Unit × AIRunState) :=
  if 0 < st.tokens then some (.ok (), { st with tokens := st.tokens - 1 })
  else if st.cancelled then some (.error "context canceled", st)
  else none

/-- Structural helper for `chunkProtocols`; the fuel starts at the list
length, which suffices since each step drops at least one element. -/
def chunkGo (batchSize : Nat) : Nat → List String → List (List String)
  | 0, _ => []
  | _ + 1, [] => []
  | fuel + 1, p :: ps =>
    (p :: ps).take batchSize :: chunkGo batchSize fuel ((p :: ps).drop batchSize)

/-- The batch partition of `Manager.ClassifyProtocols` (`i += batchSize`
over the slice; the Go loop never terminates when `batchSize = 0` and the
list is non-empty, so that case is mapped to the empty partition and
excluded by hypothesis wherever it matters). -/
def chunkProtocols (batchSize : Nat) (ps : List String) : List (List String) :=
  if batchSize = 0 then [] else chunkGo batchSize ps.length ps

/-- The per-batch loop of `Manager.ClassifyProtocols`: wait on the rate
limiter, classify the batch (aborting the whole call on failure), merge
results.  The third component of the output traces which batches reached
a provider. -/
def runBatches (now : Int) (providers : List MProvider) :
    AIRunState → List (List String) → List (String × Classification) →
    Option (Except String (List (String × Classification)) × AIRunState × List (List String))
  | st, [], acc => some (.ok acc, st, [])
  | st, b :: bs, acc =>
    match rlWait st with
    | none => none
    | some (.error e, st') => some (.error ("rate limit error: " ++ e), st', [])
    | some (.ok _, st') =>
      match Manager.classifyBatch now providers b "" with
      | .error e => some (.error ("failed to classify batch: " ++ e), st', [b])
      | .ok rs =>
        match runBatches now providers st' bs (mergeResults acc rs) with
        | none => none
        | some (res, st2, tr) => some (res, st2, b :: tr)

/-- `Manager.ClassifyProtocols`: an empty protocol list short-circuits to
an empty (allocated) result map before any rate-limiter or provider
interaction. -/
def Manager.ClassifyProtocols (now : Int) (providers : List MProvider) (st : AIRunState)
    (protocols : List String) (batchSize : Nat) :
    Option (Except String (List (String × Classification)) × AIRunState × List (List String)) :=
  if protocols = [] then some (.ok [], st, [])
  else runBatches now providers st (chunkProtocols batchSize protocols) []

/-! ## C10 : empty input short-circuit -/

/-- C10: called with an empty protocol list, `Manager.ClassifyProtocols`
returns an empty result map and no error, leaving the rate-limiter state
untouched (no wait) and reaching no provider — for every provider set,
admission state (even zero tokens or a cancelled context) and batch
size. -/
theorem classifyProtocols_empty_input (now : Int) (providers : List MProvider)
    (st : AIRunState) (batchSize : Nat) :
    Manager.ClassifyProtocols now providers st [] batchSize = some (.ok [], st, []) := by
  simp [Manager.ClassifyProtocols]

/-! ## pkg/ai/deepseek.go — response parsing (C9) -/

/-- The per-element normalization inside
`DeepSeekProvider.mapToClassifications`: an invalid class is coerced to
CS1 (with a warning), a zero confidence is defaulted to 0.8, and the
source is stamped "ai". -/
def normalizeParsed (c : Classification) : Classification :=
  let c1 := if classIsValid c.qclass then c else { c with qclass := "CS1" }
  let c2 := if c1.confidence = 0 then { c1 with confidence := mkRat 8 10 } else c1
  { c2 with source := "ai" }

/-- `DeepSeekProvider.mapToClassifications`: normalize each parsed
classification and key the result map by its protocol. -/
def mapToClassifications (cls : List Classification) : List (String × Classification) :=
  cls.foldl (fun acc c => storeResult acc c.protocol (normalizeParsed c)) []

/-- The class token scan of `parseManually` on one (upper-cased) line:
EF, else AF41, else AF21, else the CS1 default. -/
def lineScanClass (line : String) : QosClass :=
  let upperLine := strToUpper line
  if strContains upperLine "EF" then "EF"
  else if strContains upperLine "AF41" then "AF41"
  else if strContains upperLine "AF21" then "AF21"
  else "CS1"

/-- One line of `DeepSeekProvider.parseManually`: the first protocol
whose lowercased name occurs in the lowercased line receives a
0.7-confidence classification from the line's class tokens. -/
def parseManuallyLine (protocols : List String)
    (results : List (String × Classification)) (line : String) :
    List (String × Classification) :=
  match protocols.find? (fun protocol => strContains (strToLower line) (strToLower protocol)) with
  | none => results
  | some protocol =>
    storeResult results protocol
      { protocol := protocol, qclass := lineScanClass line,
        confidence := mkRat 7 10, source := "ai", timestamp := 0 }

/-- `DeepSeekProvider.parseManually`: scan the content line by line. -/
def parseManually (content : String) (protocols : List String) :
    List (String × Classification) :=
  (splitLines content).foldl (parseManuallyLine protocols) []

theorem mem_storeResult (a : List (String × Classification)) (k : String)
    (v : Classification) (q : String × Classification) (h : q ∈ storeResult a k v) :
    q ∈ a ∨ q = (k, v) := by
  induction a with
  | nil => simpa [storeResult] using h
  | cons p rest ih =>
    rcases p with ⟨k', v'⟩
    simp only [storeResult] at h
    by_cases hk : k' = k
    · rw [if_pos (by simp [hk])] at h
      rcases List.mem_cons.mp h with hq | hq
      · exact Or.inr hq
      · exact Or.inl (List.mem_cons_of_mem _ hq)
    · rw [if_neg (by simp [hk])] at h
      rcases List.mem_cons.mp h with hq | hq
      · exact Or.inl (List.mem_cons.mpr (Or.inl hq))
      · rcases ih hq with h2 | h2
        · exact Or.inl (List.mem_cons_of_mem _ h2)
        · exact Or.inr h2

theorem mem_mapToClassifications_aux :
    ∀ (cls : List Classification) (acc : List (String × Classification))
      (q : String × Classification),
    q ∈ cls.foldl (fun a c => storeResult a c.protocol (normalizeParsed c)) acc →
    q ∈ acc ∨ ∃ c0 ∈ cls, q = (c0.protocol, normalizeParsed c0) := by
  intro cls
  induction cls with
  | nil => exact fun acc q h => Or.inl (by simpa using h)
  | cons x rest ih =>
    intro acc q h
    rcases ih (storeResult acc x.protocol (normalizeParsed x)) q (by simpa using h)
      with h2 | ⟨y, hy, h2⟩
    · rcases mem_storeResult acc x.protocol (normalizeParsed x) q h2 with h3 | h3
      · exact Or.inl h3
      · exact Or.inr ⟨x, List.mem_cons_self x rest, h3⟩
    · exact Or.inr ⟨y, List.mem_cons_of_mem x hy, h2⟩

theorem mem_parseManuallyLine (protocols : List String)
    (results : List (String × Classification)) (line : String)
    (q : String × Classification) (h : q ∈ parseManuallyLine protocols results line) :
    q ∈ results ∨ ∃ protocol, q = (protocol,
      { protocol := protocol, qclass := lineScanClass line,
        confidence := mkRat 7 10, source := "ai", timestamp := 0 }) := by
  unfold parseManuallyLine at h
  cases hfind : protocols.find?
      (fun protocol => strContains (strToLower line) (strToLower protocol)) with
  | none => rw [hfind] at h; exact Or.inl h
  | some protocol =>
    rw [hfind] at h
    rcases mem_storeResult _ _ _ _ h with h2 | h2
    · exact Or.inl h2
    · exact Or.inr ⟨protocol, h2⟩

theorem mem_parseManually_aux (protocols : List String) :
    ∀ (lines : List String) (acc : List (String × Classification))
      (q : String × Classification),
    q ∈ lines.foldl (parseManuallyLine protocols) acc →
    q ∈ acc ∨ ∃ protocol line, q = (protocol,
      { protocol := protocol, qclass := lineScanClass line,
        confidence := mkRat 7 10, source := "ai", timestamp := 0 }) := by
  intro lines
  induction lines with
  | nil => exact fun acc q h => Or.inl (by simpa using h)
  | cons l rest ih =>
    intro acc q h
    rcases ih (parseManuallyLine protocols acc l) q (by simpa using h) with h2 | ⟨p, ln, h2⟩
    · rcases mem_parseManuallyLine protocols acc l q h2 with h3 | ⟨p, h3⟩
      · exact Or.inl h3
      · exact Or.inr ⟨p, l, h3⟩
    · exact Or.inr ⟨p, ln, h2⟩

theorem lineScanClass_valid (line : String) : classIsValid (lineScanClass line) = true := by
  by_cases h1 : strContains (strToUpper line) "EF" <;>
    by_cases h2 : strContains (strToUpper line) "AF41" <;>
      by_cases h3 : strContains (strToUpper line) "AF21" <;>
        simp [lineScanClass, h1, h2, h3, classIsValid, allClasses]

/-- C9: every classification a parsing strategy hands back to the caller
carries a class from the closed enum — an invalid class is coerced to the
CS1 default, never propagated; a structured-JSON result with no
confidence is assigned 0.8; a line-scan-recovered result is assigned
0.7. -/
theorem deepseek_class_coercion_and_confidence :
    (∀ cls q, q ∈ mapToClassifications cls →
      ∃ c0 ∈ cls, q = (c0.protocol, normalizeParsed c0))
  ∧ (∀ c0 : Classification, classIsValid (normalizeParsed c0).qclass = true)
  ∧ (∀ c0 : Classification, classIsValid c0.qclass = false →
      (normalizeParsed c0).qclass = "CS1")
  ∧ (∀ c0 : Classification, classIsValid c0.qclass = true →
      (normalizeParsed c0).qclass = c0.qclass)
  ∧ (∀ c0 : Classification, c0.confidence = 0 →
      (normalizeParsed c0).confidence = mkRat 8 10)
  ∧ (∀ content protocols q, q ∈ parseManually content protocols →
      q.2.confidence = mkRat 7 10 ∧ classIsValid q.2.qclass = true
      ∧ q.2.source = "ai") := by
  refine ⟨fun cls q h => ?_, fun c0 => ?_, fun c0 h1 => ?_, fun c0 h1 => ?_,
    fun c0 h1 => ?_, fun content protocols q h => ?_⟩
  · rcases mem_mapToClassifications_aux cls [] q h with h2 | ⟨x, hx, h2⟩
    · exact absurd h2 (List.not_mem_nil q)
    · exact ⟨x, hx, h2⟩
  · have hcs1 : classIsValid "CS1" = true := by decide
    by_cases h1 : classIsValid c0.qclass <;>
      by_cases h2 : c0.confidence = 0 <;>
        simp [normalizeParsed, h1, h2, hcs1]
  · by_cases h2 : c0.confidence = 0 <;> simp [normalizeParsed, h1, h2]
  · by_cases h2 : c0.confidence = 0 <;> simp [normalizeParsed, h1, h2]
  · by_cases h3 : classIsValid c0.qclass <;> simp [normalizeParsed, h1, h3]
  · rcases mem_parseManually_aux protocols (splitLines content) [] q (by simpa [parseManually] using h)
      with h2 | ⟨p, ln, h2⟩
    · exact absurd h2 (List.not_mem_nil q)
    · refine ⟨by rw [h2], by rw [h2]; exact lineScanClass_valid ln, by rw [h2]⟩

/-- A classification with an out-of-enum class and no confidence, for the
C9 witness. -/
def cBogus : Classification :=
  { protocol := "x", qclass := "BOGUS", confidence := 0, source := "", timestamp := 0 }

/-- The entry that line-scanning "1. sip: EF" for ["sip"] produces. -/
def qSip : String × Classification :=
  ("sip", { protocol := "sip", qclass := "EF", confidence := mkRat 7 10,
            source := "ai", timestamp := 0 })

/-- Witness for C9: an invalid class is coerced to CS1, and the line-scan
result for "1. sip: EF" has confidence 0.7 with a valid class. -/
theorem deepseek_class_coercion_and_confidence_witness :
    (normalizeParsed cBogus).qclass = "CS1"
  ∧ (qSip.2.confidence = mkRat 7 10 ∧ classIsValid qSip.2.qclass = true
      ∧ qSip.2.source = "ai") :=
  ⟨deepseek_class_coercion_and_confidence.2.2.1 cBogus (by decide),
   deepseek_class_coercion_and_confidence.2.2.2.2.2 "1. sip: EF" ["sip"] qSip (by decide)⟩

/-! ## C5 : all-providers-failed behavior of the orchestrator -/

/-- The provider set for the C5 counterexample: classifies the batch
["a"] successfully and fails every other batch with "boom". -/
def providerAB : MProvider :=
  { name := "deepseek", available := true,
    classify := fun bs =>
      if bs = ["a"] then
        .ok [("a", { protocol := "a", qclass := "AF41", confidence := mkRat 8 10,
                     source := "", timestamp := 0 })]
      else .error "boom" }

/-- Two admission tokens, context not cancelled. -/
def stTwo : AIRunState := { tokens := 2, cancelled := false }

/-- C5 counterexample: protocols ["a", "b"] with batch size 1 — the first
batch succeeds, every provider fails the second, and the whole call
returns an error with NO result entries: the entry for "a" resolved from
the first batch is discarded, not returned alongside the error as the
claim requires. -/
theorem classifyProtocols_no_partial_result :
    Manager.ClassifyProtocols 5 [providerAB] stTwo ["a", "b"] 1 =
      some (.error "failed to classify batch: all AI providers failed, last error: boom",
            { tokens := 0, cancelled := false }, [["a"], ["b"]]) := by
  rfl

/-- The lastErr threading of `classifyBatch`'s provider loop, used to
state which error ends up surfaced. -/
def lastProviderErr (b : List String) : List MProvider → String → String
  | [], acc => acc
  | p :: ps, acc =>
    if !p.available then lastProviderErr b ps acc
    else
      match p.classify b with
      | .ok _ => lastProviderErr b ps acc
      | .error e => lastProviderErr b ps e

/-- Any successful `classifyBatch` only emits source="ai" entries. -/
theorem classifyBatch_ok_sources (now : Int) :
    ∀ (providers : List MProvider) (b : List String) (lastErr : String)
      (rs : List (String × Classification)),
    Manager.classifyBatch now providers b lastErr = .ok rs →
    ∀ q ∈ rs, q.2.source = "ai" := by
  intro providers
  induction providers with
  | nil => intro b lastErr rs h; simp [Manager.classifyBatch] at h
  | cons p ps ih =>
    intro b lastErr rs h q hq
    by_cases hav : p.available
    · simp only [Manager.classifyBatch, hav, Bool.not_true, Bool.false_eq_true,
        if_false] at h
      cases hc : p.classify b with
      | ok rs0 =>
        rw [hc] at h
        obtain ⟨q0, _, hq0⟩ := List.mem_map.mp (Except.ok.inj h ▸ hq)
        rw [← hq0]
      | error e =>
        rw [hc] at h
        exact ih b e rs h q hq
    · simp only [Manager.classifyBatch, hav] at h
      simp only [Bool.not_false, if_true] at h
      exact ih b lastErr rs h q hq

/-- Merged results come from the accumulator or the batch results. -/
theorem mem_mergeResults (rs : List (String × Classification)) :
    ∀ (acc : List (String × Classification)) (q : String × Classification),
    q ∈ mergeResults acc rs → q ∈ acc ∨ q ∈ rs := by
  induction rs with
  | nil => exact fun acc q h => Or.inl (by simpa [mergeResults] using h)
  | cons r rest ih =>
    intro acc q h
    rcases ih (storeResult acc r.1 r.2) q (by simpa [mergeResults] using h) with h2 | h2
    · rcases mem_storeResult acc r.1 r.2 q h2 with h3 | h3
      · exact Or.inl h3
      · exact Or.inr (List.mem_cons.mpr (Or.inl h3))
    · exact Or.inr (List.mem_cons_of_mem r h2)

/-- When every available provider fails a batch, `classifyBatch` surfaces
the last provider error (threaded through `lastErr`). -/
theorem classifyBatch_all_fail (now : Int) (b : List String) :
    ∀ (providers : List MProvider) (lastErr : String),
    (∀ p ∈ providers, p.available = true → ∀ rs, p.classify b ≠ .ok rs) →
    Manager.classifyBatch now providers b lastErr =
      .error ("all AI providers failed, last error: " ++ lastProviderErr b providers lastErr) := by
  intro providers
  induction providers with
  | nil => intro lastErr _; rfl
  | cons p ps ih =>
    intro lastErr h
    by_cases hav : p.available = true
    · cases hc : p.classify b with
      | ok rs => exact absurd hc (h p (List.mem_cons_self p ps) hav rs)
      | error e =>
        simp only [Manager.classifyBatch, lastProviderErr, hav, hc, Bool.not_true,
          Bool.false_eq_true, if_false]
        exact ih e (fun q hq hqa rs => h q (List.mem_cons_of_mem p hq) hqa rs)
    · have hav' : p.available = false := by simpa using hav
      simp only [Manager.classifyBatch, lastProviderErr, hav', Bool.not_false, if_true]
      exact ih lastErr (fun q hq hqa rs => h q (List.mem_cons_of_mem p hq) hqa rs)

/-- C5 (amended): when every provider fails for some batch, the whole
`ClassifyProtocols` call aborts — it returns the wrapped
"all AI providers failed" error carrying the last provider error, and no
result entries at all: entries resolved from other batches of the same
call are discarded rather than returned; and the orchestrator never
assigns a default classification itself (every entry of a successful call
is stamped source "ai"). -/
theorem classifyProtocols_batch_failure_aborts (now : Int) (providers : List MProvider) :
    (∀ b lastErr, (∀ p ∈ providers, p.available = true → ∀ rs, p.classify b ≠ .ok rs) →
      Manager.classifyBatch now providers b lastErr =
        .error ("all AI providers failed, last error: " ++ lastProviderErr b providers lastErr))
  ∧ (∀ st bs acc, st.cancelled = false → bs.length ≤ st.tokens →
      (∃ b ∈ bs, ∃ e, Manager.classifyBatch now providers b "" = .error e) →
      ∃ e2 st2 tr, runBatches now providers st bs acc =
        some (.error ("failed to classify batch: " ++ e2), st2, tr))
  ∧ (∀ st bs acc m st2 tr, (∀ q ∈ acc, q.2.source = "ai") →
      runBatches now providers st bs acc = some (.ok m, st2, tr) →
      ∀ q ∈ m, q.2.source = "ai") := by
  refine ⟨fun b lastErr h => classifyBatch_all_fail now b providers lastErr h, ?_, ?_⟩
  · intro st bs
    induction bs generalizing st with
    | nil => intro acc _ _ hex; rcases hex with ⟨b, hb, _⟩; cases hb
    | cons b rest ih =>
      intro acc hcanc hlen hex
      have hpos : 0 < st.tokens := by
        simp only [List.length_cons] at hlen
        omega
      have hw : rlWait st = some (.ok (), { st with tokens := st.tokens - 1 }) := by
        simp [rlWait, hpos]
      cases hc : Manager.classifyBatch now providers b "" with
      | error e =>
        refine ⟨e, { st with tokens := st.tokens - 1 }, [b], ?_⟩
        simp [runBatches, hw, hc]
      | ok rs =>
        have hex' : ∃ b0 ∈ rest, ∃ e, Manager.classifyBatch now providers b0 "" = .error e := by
          rcases hex with ⟨b0, hb0, e0, he0⟩
          rcases List.mem_cons.mp hb0 with hb | hb
          · rw [hb] at he0
            rw [hc] at he0
            cases he0
          · exact ⟨b0, hb, e0, he0⟩
        have hlen' : rest.length ≤ ({ st with tokens := st.tokens - 1 } : AIRunState).tokens := by
          simp only [List.length_cons] at hlen
          simp only []
          omega
        obtain ⟨e2, st2, tr, hrun⟩ :=
          ih { st with tokens := st.tokens - 1 } (mergeResults acc rs) (by simpa using hcanc)
            hlen' hex'
        exact ⟨e2, st2, b :: tr, by simp [runBatches, hw, hc, hrun]⟩
  · intro st bs
    induction bs generalizing st with
    | nil =>
      intro acc m st2 tr hacc hrun q hq
      simp only [runBatches, Option.some.injEq, Prod.mk.injEq] at hrun
      obtain rfl : acc = m := Except.ok.inj hrun.1
      exact hacc q hq
    | cons b rest ih =>
      intro acc m st2 tr hacc hrun q hq
      cases hw : rlWait st with
      | none => rw [runBatches, hw] at hrun; cases hrun
      | some pr =>
        rcases pr with ⟨res, st'⟩
        cases res with
        | error e =>
          rw [runBatches, hw] at hrun
          simp only [Option.some.injEq, Prod.mk.injEq] at hrun
          cases hrun.1
        | ok u =>
          cases hc : Manager.classifyBatch now providers b "" with
          | error e =>
            rw [runBatches, hw] at hrun
            simp only [hc, Option.some.injEq, Prod.mk.injEq] at hrun
            cases hrun.1
          | ok rs =>
            rw [runBatches, hw] at hrun
            simp only [hc] at hrun
            cases hrec : runBatches now providers st' rest (mergeResults acc rs) with
            | none => rw [hrec] at hrun; cases hrun
            | some out =>
              rcases out with ⟨res2, st2', tr2⟩
              rw [hrec] at hrun
              simp only [Option.some.injEq, Prod.mk.injEq] at hrun
              have hacc' : ∀ q2 ∈ mergeResults acc rs, q2.2.source = "ai" := by
                intro q2 hq2
                rcases mem_mergeResults rs acc q2 hq2 with h2 | h2
                · exact hacc q2 h2
                · exact classifyBatch_ok_sources now providers b "" rs hc q2 h2
              have hrec2 : runBatches now providers st' rest (mergeResults acc rs) =
                  some (.ok m, st2', tr2) := by rw [hrec, hrun.1]
              exact ih st' (mergeResults acc rs) m st2' tr2 hacc' hrec2 q hq

/-- Witness for C5 (amended): with the concrete provider failing batch
["b"], `classifyBatch` surfaces the threaded last error, and the
two-batch run aborts with the wrapped error. -/
theorem classifyProtocols_batch_failure_aborts_witness :
    Manager.classifyBatch 5 [providerAB] ["b"] "" =
      .error ("all AI providers failed, last error: " ++ lastProviderErr ["b"] [providerAB] "")
  ∧ ∃ e2 st2 tr, runBatches 5 [providerAB] stTwo [["a"], ["b"]] [] =
      some (.error ("failed to classify batch: " ++ e2), st2, tr) :=
  ⟨(classifyProtocols_batch_failure_aborts 5 [providerAB]).1 ["b"] ""
      (by
        intro p hp hav rs hok
        have hp' : p = providerAB := by simpa using hp
        rw [hp'] at hok
        simp [providerAB] at hok),
   (classifyProtocols_batch_failure_aborts 5 [providerAB]).2.1 stTwo [["a"], ["b"]] []
      (by decide) (by decide)
      ⟨["b"], by decide, "all AI providers failed, last error: boom", by rfl⟩⟩

/-! ## C7 : token-bucket rate limiter (pkg/ai/ratelimiter.go)

The buffered channel `tokens` is modeled by its fill level, the
background `refillTokens` goroutine by explicit refill events, and the
ticker by the count of ticks delivered within an elapsed time.  `Wait`'s
select is sequentialized: an available token is taken immediately; with
none, a cancelled context yields the cancellation error, and otherwise
the call blocks until a refill (`none` here). -/

/-- The token pool of `ai.RateLimiter`: channel fill level plus the
channel capacity (burst size). -/
structure RLState where
  burstSize : Nat
  tokens : Nat
deriving DecidableEq

/-- `NewRateLimiter`: the initial bucket is filled to the burst size. -/
def NewRateLimiter (burstSize : Nat) : RLState :=
  { burstSize := burstSize, tokens := burstSize }

/-- One tick of `refillTokens`: the non-blocking send adds a token, or
drops it when the channel buffer is full. -/
def refillOnce (s : RLState) : RLState :=
  if s.tokens < s.burstSize then { s with tokens := s.tokens + 1 } else s

/-- `time.Minute / time.Duration(requestsPerMinute)` in nanoseconds
(integer division, as in Go). -/
def refillInterval (requestsPerMinute : Nat) : Nat :=
  60000000000 / requestsPerMinute

/-- Ticks delivered by the refill ticker within `t` nanoseconds of start
(the first tick fires after one full interval). -/
def refillsBy (requestsPerMinute t : Nat) : Nat :=
  t / refillInterval requestsPerMinute

/-- One `RateLimiter.Wait(ctx)` (see the module comment). -/
def RLWait (cancelled : Bool) (s : RLState) : Option (Except String Unit × RLState) :=
  if 0 < s.tokens then some (.ok (), { s with tokens := s.tokens - 1 })
  else if cancelled then some (.error "context canceled", s)
  else none

/-- `n` consecutive `Wait` calls, all required to succeed immediately. -/
def drainN : Nat → RLState → Bool × RLState
  | 0, s => (true, s)
  | n + 1, s =>
    match RLWait false s with
    | some (.ok _, s') => drainN n s'
    | _ => (false, s)

/-- Draining exactly the available tokens succeeds immediately. -/
theorem drainN_exact : ∀ (n b : Nat),
    drainN n { burstSize := b, tokens := n } = (true, { burstSize := b, tokens := 0 }) := by
  intro n
  induction n with
  | zero => intro b; rfl
  | succ n ih =>
    intro b
    have hw : RLWait false { burstSize := b, tokens := n + 1 } =
        some (.ok (), { burstSize := b, tokens := n }) := by
      simp [RLWait]
    simp only [drainN, hw]
    exact ih b

/-- C7: the limiter is a token bucket of capacity `burst_size` that
starts full — `burst_size` immediate `Wait`s all succeed; the next `Wait`
finds an empty bucket and blocks; no refill tick is delivered before one
full interval `60s / requests_per_minute` has elapsed, and one is by that
interval, after which the blocked `Wait` succeeds; a refill into a full
bucket is dropped; and a cancelled `Wait` with no token available returns
the cancellation error. -/
theorem rateLimiter_token_bucket (burstSize rpm : Nat) :
    (drainN burstSize (NewRateLimiter burstSize) =
      (true, { burstSize := burstSize, tokens := 0 }))
  ∧ (RLWait false { burstSize := burstSize, tokens := 0 } = none)
  ∧ (∀ t, t < refillInterval rpm → refillsBy rpm t = 0)
  ∧ (0 < rpm → rpm ≤ 60000000000 → 1 ≤ refillsBy rpm (refillInterval rpm))
  ∧ (0 < burstSize → RLWait false (refillOnce { burstSize := burstSize, tokens := 0 }) =
      some (.ok (), { burstSize := burstSize, tokens := 0 }))
  ∧ (refillOnce { burstSize := burstSize, tokens := burstSize } =
      { burstSize := burstSize, tokens := burstSize })
  ∧ (∀ s : RLState, s.tokens = 0 →
      RLWait true s = some (.error "context canceled", s)) := by
  refine ⟨drainN_exact burstSize burstSize, by simp [RLWait], fun t ht => Nat.div_eq_of_lt ht,
    fun h1 h2 => ?_, fun hb => ?_, by simp [refillOnce], fun s hs => ?_⟩
  · have hint : 0 < refillInterval rpm := Nat.div_pos h2 h1
    simpa [refillsBy] using Nat.le_of_eq (Nat.div_self hint).symm
  · simp [refillOnce, RLWait, hb]
  · simp [RLWait, hs]

/-- Witness for C7 at burst size 2 and 60 requests/minute: a tick has
arrived by one interval; a refill wakes the blocked waiter; cancellation
with an empty bucket returns the context error. -/
theorem rateLimiter_token_bucket_witness :
    1 ≤ refillsBy 60 (refillInterval 60)
  ∧ RLWait false (refillOnce { burstSize := 2, tokens := 0 }) =
      some (.ok (), { burstSize := 2, tokens := 0 })
  ∧ RLWait true { burstSize := 2, tokens := 0 } =
      some (.error "context canceled", { burstSize := 2, tokens := 0 }) :=
  ⟨(rateLimiter_token_bucket 2 60).2.2.2.1 (by decide) (by decide),
   (rateLimiter_token_bucket 2 60).2.2.2.2.1 (by decide),
   (rateLimiter_token_bucket 2 60).2.2.2.2.2.2 { burstSize := 2, tokens := 0 } (by decide)⟩
